import Mathlib

/-!
Shallow embedding of the `pipe!` macro from `src/lib.rs` of the
`pipeline-macro` crate.

The macro is a token-level rewriter with five arms (in order):

1. `($e:expr) => $e`  — empty stage list, the initial expression unchanged.
2. `($in:expr => $($i:ident).+ $(())? ...) => pipe!(path($in) ...)` — a
   dotted path, optionally followed by empty parentheses, applied to the
   running value as sole argument.
3. `($in:expr => $($i:ident).+ (heads,? holes-groups) ...)` — a dotted path
   with an explicit argument list; the running value is bound to the
   temporary `pipe_temp` and substituted for every blank `_`.
4. same as 3 but with a parenthesized callee expression `($e:expr)`.
5. `($in:expr => $e:expr ...) => pipe!($e($in) ...)` — any other expression,
   applied to the running value.

We model host expressions (`Expr`), the token shape of one stage (`Stage`,
`Arg`, `ArgListTok`), the recursive expansion (`pipeExpand`), and a
fuel-indexed left-to-right evaluator with an effect trace (`evalE`) which
mirrors the host language evaluation order: in a `let`, the bound value
first; in a call, the callee, then the arguments left to right.
-/

mutual

/-- Host-language expressions, as far as the rewriter needs them. -/
inductive Expr where
  | lit (n : Int)
  | var (x : String)
  | path (segs : List String)
  | lam (x : String) (body : Expr)
  | app (f : Expr) (args : Args)
  | letE (x : String) (v : Expr) (body : Expr)
  | eff (tag : Nat) (e : Expr)

/-- Argument lists of a call expression. -/
inductive Args where
  | nil
  | cons (a : Expr) (as : Args)

end

deriving instance DecidableEq for Expr
deriving instance DecidableEq for Args

/-- One argument position in a stage's written argument list: a blank `_`
or an ordinary expression. -/
inductive Arg where
  | hole
  | expr (e : Expr)
deriving DecidableEq

/-- The parenthesized argument tokens of a call stage: the flat list of
argument positions, plus whether a comma trails the last one. -/
structure ArgListTok where
  args : List Arg
  trailing : Bool
deriving DecidableEq

/-- The token shape of one `=>`-separated pipeline stage, as the macro
matcher distinguishes them. -/
inductive Stage where
  | pathOnly (segs : List String)
  | pathCall (segs : List String) (al : ArgListTok)
  | parenCall (c : Expr) (al : ArgListTok)
  | bare (e : Expr)
deriving DecidableEq

/-- Runtime values of the host evaluator. -/
inductive Value where
  | int (n : Int)
  | fn (segs : List String)
  | lamV (x : String) (body : Expr)
deriving DecidableEq

/-- An effect trace: the tags of side effects, in the order they ran. -/
abbrev Trace := List Nat

/-- Meaning of named functions: each path may name a pure host function. -/
abbrev FunEnv := List String → Option (List Value → Option Value)

/-- The name of the synthetic temporary bound by the placeholder arms. -/
def pipeTemp : String := "pipe_temp"

/-- Is this argument position the blank `_`? -/
def Arg.isHole : Arg → Bool
  | .hole => true
  | .expr _ => false

/-- Does the macro sub-matcher
`$($($arg_head:expr_2021),*,)? $(_ $(, $arg_tail:expr_2021)*),*`
accept these argument tokens?  With a trailing comma the list must be
heads only (no blank can sit inside the head group); without one, the
list must be empty or contain at least one blank starting a group. -/
def argsMatch (al : ArgListTok) : Bool :=
  if al.trailing then al.args.all fun a => !(Arg.isHole a)
  else al.args.isEmpty || al.args.any Arg.isHole

/-- Replace every blank by the expression `u`, keeping the other
arguments verbatim in their positions. -/
def fillArgsWith (u : Expr) : List Arg → Args
  | [] => .nil
  | .hole :: r => .cons u (fillArgsWith u r)
  | .expr e :: r => .cons e (fillArgsWith u r)

/-- Replace every blank by the temporary variable `t`. -/
def fillArgs (t : String) (args : List Arg) : Args :=
  fillArgsWith (.var t) args

/-- Read the argument tokens back as plain expressions; fails if any
position is a blank (a blank is not an expression of the host language). -/
def argsOfExprs : List Arg → Option Args
  | [] => some .nil
  | .hole :: _ => none
  | .expr e :: r => (argsOfExprs r).map fun as => .cons e as

/-- Build an `Args` list from a plain list of expressions. -/
def Args.ofList : List Expr → Args
  | [] => .nil
  | e :: r => .cons e (Args.ofList r)

/-- The expansion of `pipe!(e => s1 => ... => sn)`, arm by arm.  `none`
models the macro emitting no match (a malformed stage).  The placeholder
arms wrap the whole remaining expansion in the scope of the temporary,
exactly as the macro's emitted block does. -/
def pipeExpand : Expr → List Stage → Option Expr
  | e, [] => some e
  | e, .pathOnly segs :: rest =>
      pipeExpand (.app (.path segs) (.cons e .nil)) rest
  | e, .pathCall segs al :: rest =>
      if al.args = [] ∧ al.trailing = false then
        pipeExpand (.app (.path segs) (.cons e .nil)) rest
      else if argsMatch al then
        (pipeExpand (.app (.path segs) (fillArgs pipeTemp al.args)) rest).map
          fun body => .letE pipeTemp e body
      else
        (argsOfExprs al.args).bind fun es =>
          pipeExpand (.app (.app (.path segs) es) (.cons e .nil)) rest
  | e, .parenCall ce al :: rest =>
      if argsMatch al then
        (pipeExpand (.app ce (fillArgs pipeTemp al.args)) rest).map
          fun body => .letE pipeTemp e body
      else
        (argsOfExprs al.args).bind fun es =>
          pipeExpand (.app (.app ce es) (.cons e .nil)) rest
  | e, .bare g :: rest =>
      pipeExpand (.app g (.cons e .nil)) rest

/-- The four stage shapes of the design (§4.1), plus the no-match case. -/
inductive Shape where
  | unary
  | namedHoles
  | parenHoles
  | bareShape
  | malformed
deriving DecidableEq

/-- Which macro arm claims a given stage, in the macro's arm order. -/
def classifyStage : Stage → Shape
  | .pathOnly _ => .unary
  | .pathCall _ al =>
      if al.args = [] ∧ al.trailing = false then .unary
      else if argsMatch al then .namedHoles
      else if al.args.any Arg.isHole then .malformed
      else .bareShape
  | .parenCall _ al =>
      if argsMatch al then .parenHoles
      else if al.args.any Arg.isHole then .malformed
      else .bareShape
  | .bare _ => .bareShape

/-- The nested right-to-left call the spec says a chain of unary stages is
equivalent to: `fk(...f2(f1(e))...)`.  This definition follows the spec's
words, to be compared with `pipeExpand`. -/
def nestedCall (e0 : Expr) (fs : List (List String)) : Expr :=
  fs.foldl (fun acc f => .app (.path f) (.cons acc .nil)) e0

/-- Read a value back as an (effect-free) expression. -/
def valToExpr : Value → Expr
  | .int n => .lit n
  | .fn segs => .path segs
  | .lamV x b => .lam x b

mutual

/-- Capture-naive substitution of `u` for the variable `x`; binders
shadow, as `let` bindings do in the host language. -/
def subst (x : String) (u : Expr) : Expr → Expr
  | .lit n => .lit n
  | .var y => if y = x then u else .var y
  | .path s => .path s
  | .lam y b => if y = x then .lam y b else .lam y (subst x u b)
  | .app f as => .app (subst x u f) (substL x u as)
  | .letE y v b => .letE y (subst x u v) (if y = x then b else subst x u b)
  | .eff t e => .eff t (subst x u e)

/-- `subst` mapped over an argument list. -/
def substL (x : String) (u : Expr) : Args → Args
  | .nil => .nil
  | .cons a as => .cons (subst x u a) (substL x u as)

end

mutual

/-- Fuel-indexed big-step evaluator with an effect trace, following the
host language's order: in a `let`, the bound value before the body; in a
call, the callee, then the arguments left to right, then the application. -/
def evalE (G : FunEnv) : Nat → Expr → Trace → Option (Value × Trace)
  | n, e, tr =>
    match e, n with
    | .lit k, _ => some (.int k, tr)
    | .var _, _ => none
    | .path s, _ => some (.fn s, tr)
    | .lam x b, _ => some (.lamV x b, tr)
    | .eff _ _, 0 => none
    | .eff t e1, m + 1 => evalE G m e1 (tr ++ [t])
    | .letE _ _ _, 0 => none
    | .letE x v b, m + 1 =>
        (evalE G m v tr).bind fun p => evalE G m (subst x (valToExpr p.1) b) p.2
    | .app _ _, 0 => none
    | .app f as, m + 1 =>
        (evalE G m f tr).bind fun p =>
        (evalArgsE G m as p.2).bind fun q =>
        applyV G m p.1 q.1 q.2

/-- Evaluate an argument list left to right, threading the trace. -/
def evalArgsE (G : FunEnv) : Nat → Args → Trace → Option (List Value × Trace)
  | n, as, tr =>
    match as, n with
    | .nil, _ => some ([], tr)
    | .cons _ _, 0 => none
    | .cons a as1, m + 1 =>
        (evalE G m a tr).bind fun p =>
        (evalArgsE G m as1 p.2).bind fun q => some (p.1 :: q.1, q.2)

/-- Apply an evaluated callee to evaluated arguments. -/
def applyV (G : FunEnv) : Nat → Value → List Value → Trace → Option (Value × Trace)
  | n, v, vs, tr =>
    match v, n with
    | .fn s, _ => (G s).bind fun impl => (impl vs).map fun w => (w, tr)
    | .int _, _ => none
    | .lamV _ _, 0 => none
    | .lamV x b, m + 1 =>
        match vs with
        | [w] => evalE G m (subst x (valToExpr w) b) tr
        | _ => none

end

/-- A value read back as an expression evaluates to itself, with no
effect, at any fuel. -/
lemma evalE_valToExpr (G : FunEnv) (n : Nat) (v : Value) (tr : Trace) :
    evalE G n (valToExpr v) tr = some (v, tr) := by
  cases v <;> cases n <;> rfl

/-- Substituting `u` for the temporary in a blank-filled argument list
yields the list with every blank filled by `u`, provided the explicit
arguments do not mention the temporary (the macro's hygiene gives this
in the source language). -/
lemma substL_fillArgsWith (u : Expr) (args : List Arg)
    (h : ∀ e, Arg.expr e ∈ args → subst pipeTemp u e = e) :
    substL pipeTemp u (fillArgsWith (.var pipeTemp) args) = fillArgsWith u args := by
  induction args with
  | nil => rfl
  | cons a r ih =>
      have hr : ∀ e, Arg.expr e ∈ r → subst pipeTemp u e = e :=
        fun e he => h e (List.mem_cons_of_mem _ he)
      cases a with
      | hole => simp [fillArgsWith, substL, subst, ih hr]
      | expr e => simp [fillArgsWith, substL, ih hr, h e (List.mem_cons_self _ _)]

/-- A list of ordinary expressions contains no blank. -/
lemma any_isHole_map_false (es : List Expr) :
    (es.map Arg.expr).any Arg.isHole = false := by
  induction es with
  | nil => rfl
  | cons e r ih => simp only [List.map_cons, List.any_cons, Arg.isHole, ih, Bool.or_false]

/-- Reading back argument tokens that are all ordinary expressions. -/
lemma argsOfExprs_map (es : List Expr) :
    argsOfExprs (es.map Arg.expr) = some (Args.ofList es) := by
  induction es with
  | nil => rfl
  | cons e r ih => simp [argsOfExprs, Args.ofList, ih]

/-- A non-empty argument list with no blank and no trailing comma is not
accepted by the placeholder sub-matcher. -/
lemma argsMatch_map_false (es : List Expr) (h : es ≠ []) :
    argsMatch ⟨es.map Arg.expr, false⟩ = false := by
  cases es with
  | nil => exact absurd rfl h
  | cons e r => simp [argsMatch, Arg.isHole, any_isHole_map_false]

/-- Claim C1: for every initial expression `e0` and sequence of unary
function names `f1..fk`, the expansion of
`pipe!(e0 => f1 => ... => fk)` is exactly the nested call
`fk(...f2(f1(e0))...)` (so in particular the two are observationally
equal for effect-free functions). -/
theorem pipe_unary_chain_eq_nested (e0 : Expr) (fs : List (List String)) :
    pipeExpand e0 (fs.map Stage.pathOnly) = some (nestedCall e0 fs) := by
  induction fs generalizing e0 with
  | nil => rfl
  | cons f r ih =>
      simpa [pipeExpand, nestedCall] using ih (.app (.path f) (.cons e0 .nil))

/-- Claim C6: with an empty stage list the rewriter accepts the input and
returns the initial expression unchanged. -/
theorem pipe_empty_stage_list (e : Expr) : pipeExpand e [] = some e := rfl

/-- Claim C8: a stage matching none of shapes 1-3 (any other expression
`g`, e.g. an anonymous function) expands to `g` applied to the carrier as
sole argument, with no temporary introduced. -/
theorem pipe_bare_stage_apply (g c : Expr) :
    pipeExpand c [Stage.bare g] = some (.app g (.cons c .nil)) := rfl

/-- Claim C4: for a placeholder stage `g(a, _, b)` the emitted call keeps
`a` and `b` verbatim in their original positions and fills the blank with
the temporary bound to the carrier. -/
theorem pipe_arg_position_fidelity (g : List String) (a b c : Expr) :
    pipeExpand c [Stage.pathCall g ⟨[.expr a, .hole, .expr b], false⟩]
      = some (.letE pipeTemp c
          (.app (.path g) (.cons a (.cons (.var pipeTemp) (.cons b .nil))))) := rfl

/-- Claim C3, counterexample: the stage `f(1,)` — a named call whose
argument list has zero placeholders but a trailing comma — is taken by the
placeholder arm, not the bare-expression arm: the expansion binds the
temporary and never applies the call result to the carrier. -/
theorem pipe_no_hole_call_cex :
    classifyStage (.pathCall ["f"] ⟨[.expr (.lit 1)], true⟩) = Shape.namedHoles
    ∧ Shape.namedHoles ≠ Shape.bareShape
    ∧ pipeExpand (.lit 0) [.pathCall ["f"] ⟨[.expr (.lit 1)], true⟩]
        = some (.letE pipeTemp (.lit 0) (.app (.path ["f"]) (.cons (.lit 1) .nil)))
    ∧ Expr.letE pipeTemp (.lit 0) (.app (.path ["f"]) (.cons (.lit 1) .nil))
        ≠ Expr.app (.app (.path ["f"]) (.cons (.lit 1) .nil)) (.cons (.lit 0) .nil) :=
  ⟨rfl, by decide, rfl, by decide⟩

/-- Claim C3, amended: a call stage (named or parenthesized callee) whose
argument list is non-empty, has no trailing comma, and contains zero
placeholders falls through to the bare-expression arm: the whole call is
treated as a callable and applied to the carrier. -/
theorem pipe_zero_hole_no_trailing_bare (g : List String) (ce c : Expr)
    (es : List Expr) (h : es ≠ []) :
    pipeExpand c [.pathCall g ⟨es.map Arg.expr, false⟩]
      = some (.app (.app (.path g) (Args.ofList es)) (.cons c .nil))
    ∧ pipeExpand c [.parenCall ce ⟨es.map Arg.expr, false⟩]
      = some (.app (.app ce (Args.ofList es)) (.cons c .nil))
    ∧ classifyStage (.pathCall g ⟨es.map Arg.expr, false⟩) = Shape.bareShape
    ∧ classifyStage (.parenCall ce ⟨es.map Arg.expr, false⟩) = Shape.bareShape := by
  have hm := argsMatch_map_false es h
  have hne : es.map Arg.expr ≠ [] := by simpa using h
  refine ⟨?_, ?_, ?_, ?_⟩ <;>
    simp [pipeExpand, classifyStage, hm, hne, argsOfExprs_map, any_isHole_map_false]

/-- Claim C3, witness at the stage `f(1)` and `(fun x => x)(1)` with
carrier `0`. -/
theorem pipe_zero_hole_no_trailing_bare_witness :
    pipeExpand (.lit 0) [.pathCall ["f"] ⟨[Expr.lit 1].map Arg.expr, false⟩]
      = some (.app (.app (.path ["f"]) (Args.ofList [Expr.lit 1])) (.cons (.lit 0) .nil))
    ∧ pipeExpand (.lit 0) [.parenCall (.lam "x" (.var "x")) ⟨[Expr.lit 1].map Arg.expr, false⟩]
      = some (.app (.app (.lam "x" (.var "x")) (Args.ofList [Expr.lit 1])) (.cons (.lit 0) .nil))
    ∧ classifyStage (.pathCall ["f"] ⟨[Expr.lit 1].map Arg.expr, false⟩) = Shape.bareShape
    ∧ classifyStage (.parenCall (.lam "x" (.var "x")) ⟨[Expr.lit 1].map Arg.expr, false⟩)
        = Shape.bareShape :=
  pipe_zero_hole_no_trailing_bare ["f"] (.lam "x" (.var "x")) (.lit 0) [Expr.lit 1] (by decide)

/-- Claim C7: a multi-segment dotted path is classified and expanded by
the same rule as a single-segment one, for the unary shape and for the
placeholder shape: the result formulas are uniform in the path. -/
theorem pipe_multi_segment_uniform (segs segs2 : List String) (al : ArgListTok) (c : Expr)
    (h1 : argsMatch al = true) (h2 : ¬(al.args = [] ∧ al.trailing = false)) :
    classifyStage (.pathOnly segs) = classifyStage (.pathOnly segs2)
    ∧ classifyStage (.pathCall segs al) = classifyStage (.pathCall segs2 al)
    ∧ pipeExpand c [.pathOnly segs] = some (.app (.path segs) (.cons c .nil))
    ∧ pipeExpand c [.pathCall segs al]
        = some (.letE pipeTemp c (.app (.path segs) (fillArgs pipeTemp al.args))) := by
  refine ⟨rfl, rfl, rfl, ?_⟩
  simp [pipeExpand, h1, h2]

/-- Claim C7, witness: the two-segment path `y.max` behaves like the
one-segment path `t`, both as a unary stage and with arguments `(_)`. -/
theorem pipe_multi_segment_uniform_witness :
    classifyStage (.pathOnly ["y", "max"]) = classifyStage (.pathOnly ["t"])
    ∧ classifyStage (.pathCall ["y", "max"] ⟨[Arg.hole], false⟩)
        = classifyStage (.pathCall ["t"] ⟨[Arg.hole], false⟩)
    ∧ pipeExpand (.lit 3) [.pathOnly ["y", "max"]]
        = some (.app (.path ["y", "max"]) (.cons (.lit 3) .nil))
    ∧ pipeExpand (.lit 3) [.pathCall ["y", "max"] ⟨[Arg.hole], false⟩]
        = some (.letE pipeTemp (.lit 3)
            (.app (.path ["y", "max"]) (fillArgs pipeTemp [Arg.hole]))) :=
  pipe_multi_segment_uniform ["y", "max"] ["t"] ⟨[Arg.hole], false⟩ (.lit 3)
    (by decide) (by decide)

/-- Fuel-bounded version of `pipeExpand`, spending one unit of fuel per
stage: outer `none` means the fuel ran out before the base case, `some r`
that the rewrite reached the empty stage list with outcome `r`. -/
def pipeExpandF : Nat → Expr → List Stage → Option (Option Expr)
  | _, e, [] => some (some e)
  | 0, _, _ :: _ => none
  | n + 1, e, .pathOnly segs :: rest =>
      pipeExpandF n (.app (.path segs) (.cons e .nil)) rest
  | n + 1, e, .pathCall segs al :: rest =>
      if al.args = [] ∧ al.trailing = false then
        pipeExpandF n (.app (.path segs) (.cons e .nil)) rest
      else if argsMatch al then
        (pipeExpandF n (.app (.path segs) (fillArgs pipeTemp al.args)) rest).map
          fun r => r.map fun body => .letE pipeTemp e body
      else
        match argsOfExprs al.args with
        | none => some none
        | some es => pipeExpandF n (.app (.app (.path segs) es) (.cons e .nil)) rest
  | n + 1, e, .parenCall ce al :: rest =>
      if argsMatch al then
        (pipeExpandF n (.app ce (fillArgs pipeTemp al.args)) rest).map
          fun r => r.map fun body => .letE pipeTemp e body
      else
        match argsOfExprs al.args with
        | none => some none
        | some es => pipeExpandF n (.app (.app ce es) (.cons e .nil)) rest
  | n + 1, e, .bare g :: rest =>
      pipeExpandF n (.app g (.cons e .nil)) rest

/-- Claim C9: the rewrite terminates — with fuel at least the number of
stages (each recursive step consumes one stage), the fuel-bounded rewriter
reaches the base case and agrees with the total one. -/
theorem pipe_expand_terminates (ss : List Stage) : ∀ (n : Nat) (e : Expr),
    ss.length ≤ n → pipeExpandF n e ss = some (pipeExpand e ss) := by
  induction ss with
  | nil => intro n e _; cases n <;> rfl
  | cons s rest ih =>
      intro n e h
      cases n with
      | zero => simp at h
      | succ m =>
          have hm : rest.length ≤ m := by
            simp only [List.length_cons] at h; omega
          cases s with
          | pathOnly segs => simpa [pipeExpandF, pipeExpand] using ih m _ hm
          | bare g => simpa [pipeExpandF, pipeExpand] using ih m _ hm
          | pathCall segs al =>
              by_cases h1 : al.args = [] ∧ al.trailing = false
              · simp [pipeExpandF, pipeExpand, h1, ih m _ hm]
              · by_cases h2 : argsMatch al
                · simp [pipeExpandF, pipeExpand, h1, h2, ih m _ hm]
                · cases hoe : argsOfExprs al.args with
                  | none => simp [pipeExpandF, pipeExpand, h1, h2, hoe]
                  | some es => simp [pipeExpandF, pipeExpand, h1, h2, hoe, ih m _ hm]
          | parenCall ce al =>
              by_cases h2 : argsMatch al
              · simp [pipeExpandF, pipeExpand, h2, ih m _ hm]
              · cases hoe : argsOfExprs al.args with
                | none => simp [pipeExpandF, pipeExpand, h2, hoe]
                | some es => simp [pipeExpandF, pipeExpand, h2, hoe, ih m _ hm]

/-- Claim C9, witness: a two-stage pipeline expands within fuel 2. -/
theorem pipe_expand_terminates_witness :
    pipeExpandF 2 (.lit 3) [.pathOnly ["inc"], .bare (.lam "x" (.var "x"))]
      = some (pipeExpand (.lit 3) [.pathOnly ["inc"], .bare (.lam "x" (.var "x"))]) :=
  pipe_expand_terminates [.pathOnly ["inc"], .bare (.lam "x" (.var "x"))] 2 (.lit 3)
    (by decide)

/-- Unfolding: literals need no fuel. -/
lemma evalE_lit (G : FunEnv) (n : Nat) (k : Int) (tr : Trace) :
    evalE G n (.lit k) tr = some (.int k, tr) := by
  cases n <;> rfl

/-- Unfolding: a path evaluates to the named-function value. -/
lemma evalE_path (G : FunEnv) (n : Nat) (s : List String) (tr : Trace) :
    evalE G n (.path s) tr = some (.fn s, tr) := by
  cases n <;> rfl

/-- Unfolding: an effect records its tag, then evaluates its body. -/
lemma evalE_eff (G : FunEnv) (n : Nat) (t : Nat) (e : Expr) (tr : Trace) :
    evalE G (n + 1) (.eff t e) tr = evalE G n e (tr ++ [t]) := rfl

/-- Unfolding: a `let` evaluates the bound value once, then the body with
the value substituted for the variable. -/
lemma evalE_letE (G : FunEnv) (n : Nat) (x : String) (v b : Expr) (tr : Trace) :
    evalE G (n + 1) (.letE x v b) tr
      = (evalE G n v tr).bind fun p => evalE G n (subst x (valToExpr p.1) b) p.2 := rfl

/-- Unfolding: a call evaluates the callee, then the arguments left to
right, then applies. -/
lemma evalE_app (G : FunEnv) (n : Nat) (f : Expr) (as : Args) (tr : Trace) :
    evalE G (n + 1) (.app f as) tr
      = (evalE G n f tr).bind fun p =>
        (evalArgsE G n as p.2).bind fun q => applyV G n p.1 q.1 q.2 := rfl

/-- Unfolding: the empty argument list. -/
lemma evalArgsE_nil (G : FunEnv) (n : Nat) (tr : Trace) :
    evalArgsE G n .nil tr = some ([], tr) := by
  cases n <;> rfl

/-- Unfolding: one argument, then the rest. -/
lemma evalArgsE_cons (G : FunEnv) (n : Nat) (a : Expr) (as : Args) (tr : Trace) :
    evalArgsE G (n + 1) (.cons a as) tr
      = (evalE G n a tr).bind fun p =>
        (evalArgsE G n as p.2).bind fun q => some (p.1 :: q.1, q.2) := rfl

/-- Unfolding: applying a named function looks its meaning up. -/
lemma applyV_fn (G : FunEnv) (n : Nat) (s : List String) (vs : List Value) (tr : Trace) :
    applyV G n (.fn s) vs tr = (G s).bind fun impl => (impl vs).map fun w => (w, tr) := by
  cases n <;> rfl

/-- Concrete named functions used by the witnesses: a ternary `g`, a
binary `pair2`, a unary `inc` and `f`, a nullary `h`; the integer
encodings keep the argument positions observable. -/
def sampleG : FunEnv := fun segs =>
  match segs with
  | ["g"] => some fun vs =>
      match vs with
      | [Value.int a, Value.int b, Value.int c] => some (.int (a * 10000 + b * 100 + c))
      | _ => none
  | ["pair2"] => some fun vs =>
      match vs with
      | [Value.int a, Value.int b] => some (.int (a * 100 + b))
      | _ => none
  | ["inc"] => some fun vs =>
      match vs with
      | [Value.int a] => some (.int (a + 1))
      | _ => none
  | ["f"] => some fun vs =>
      match vs with
      | [v] => some v
      | _ => none
  | ["h"] => some fun vs =>
      match vs with
      | [] => some (.int 42)
      | _ => none
  | _ => none

/-- Claim C2: a stage whose argument list contains at least one blank
expands to a `let` that binds the carrier to the temporary, and running
that `let` evaluates the carrier exactly once — the body then runs with
the cached value filled in for every blank, so all blanks resolve to the
same value.  The hygiene hypotheses say the user-written arguments and
callee cannot mention the macro-internal temporary. -/
theorem pipe_placeholder_single_eval (G : FunEnv) (n : Nat) (g : List String)
    (ce c : Expr) (args : List Arg) (tr : Trace)
    (h1 : Arg.hole ∈ args)
    (h2 : ∀ e, Arg.expr e ∈ args → ∀ u, subst pipeTemp u e = e)
    (h3 : ∀ u, subst pipeTemp u ce = ce) :
    pipeExpand c [.pathCall g ⟨args, false⟩]
      = some (.letE pipeTemp c (.app (.path g) (fillArgs pipeTemp args)))
    ∧ evalE G (n + 1) (.letE pipeTemp c (.app (.path g) (fillArgs pipeTemp args))) tr
        = ((evalE G n c tr).bind fun p =>
            evalE G n (.app (.path g) (fillArgsWith (valToExpr p.1) args)) p.2)
    ∧ pipeExpand c [.parenCall ce ⟨args, false⟩]
      = some (.letE pipeTemp c (.app ce (fillArgs pipeTemp args)))
    ∧ evalE G (n + 1) (.letE pipeTemp c (.app ce (fillArgs pipeTemp args))) tr
        = ((evalE G n c tr).bind fun p =>
            evalE G n (.app ce (fillArgsWith (valToExpr p.1) args)) p.2) := by
  have hne : args ≠ [] := List.ne_nil_of_mem h1
  have hm : argsMatch ⟨args, false⟩ = true := by
    simp only [argsMatch, Bool.false_eq_true, if_false, Bool.or_eq_true, List.any_eq_true]
    exact Or.inr ⟨Arg.hole, h1, rfl⟩
  have hsub : ∀ v : Value,
      subst pipeTemp (valToExpr v) (.app (.path g) (fillArgs pipeTemp args))
        = .app (.path g) (fillArgsWith (valToExpr v) args) := by
    intro v
    simp [subst, fillArgs,
      substL_fillArgsWith (valToExpr v) args (fun e he => h2 e he (valToExpr v))]
  have hsub2 : ∀ v : Value,
      subst pipeTemp (valToExpr v) (.app ce (fillArgs pipeTemp args))
        = .app ce (fillArgsWith (valToExpr v) args) := by
    intro v
    simp [subst, fillArgs, h3 (valToExpr v),
      substL_fillArgsWith (valToExpr v) args (fun e he => h2 e he (valToExpr v))]
  refine ⟨?_, ?_, ?_, ?_⟩
  · simp [pipeExpand, hne, hm]
  · rw [evalE_letE]
    cases evalE G n c tr with
    | none => rfl
    | some p => simp [hsub p.1]
  · simp [pipeExpand, hm]
  · rw [evalE_letE]
    cases evalE G n c tr with
    | none => rfl
    | some p => simp [hsub2 p.1]

/-- Claim C2, witness at the stage `pair2(_, _)` (and it parenthesized)
with the effectful carrier `eff 7 5`. -/
theorem pipe_placeholder_single_eval_witness :
    pipeExpand (.eff 7 (.lit 5)) [.pathCall ["pair2"] ⟨[Arg.hole, Arg.hole], false⟩]
      = some (.letE pipeTemp (.eff 7 (.lit 5))
          (.app (.path ["pair2"]) (fillArgs pipeTemp [Arg.hole, Arg.hole])))
    ∧ evalE sampleG (2 + 1) (.letE pipeTemp (.eff 7 (.lit 5))
          (.app (.path ["pair2"]) (fillArgs pipeTemp [Arg.hole, Arg.hole]))) []
        = ((evalE sampleG 2 (.eff 7 (.lit 5)) []).bind fun p =>
            evalE sampleG 2
              (.app (.path ["pair2"]) (fillArgsWith (valToExpr p.1) [Arg.hole, Arg.hole])) p.2)
    ∧ pipeExpand (.eff 7 (.lit 5)) [.parenCall (.path ["pair2"]) ⟨[Arg.hole, Arg.hole], false⟩]
      = some (.letE pipeTemp (.eff 7 (.lit 5))
          (.app (.path ["pair2"]) (fillArgs pipeTemp [Arg.hole, Arg.hole])))
    ∧ evalE sampleG (2 + 1) (.letE pipeTemp (.eff 7 (.lit 5))
          (.app (.path ["pair2"]) (fillArgs pipeTemp [Arg.hole, Arg.hole]))) []
        = ((evalE sampleG 2 (.eff 7 (.lit 5)) []).bind fun p =>
            evalE sampleG 2
              (.app (.path ["pair2"]) (fillArgsWith (valToExpr p.1) [Arg.hole, Arg.hole])) p.2) :=
  pipe_placeholder_single_eval sampleG 2 ["pair2"] (.path ["pair2"]) (.eff 7 (.lit 5))
    [Arg.hole, Arg.hole] []
    (List.mem_cons_self _ _)
    (by intro e he u; simp at he)
    (fun u => rfl)

/-- Claim C5, counterexample: for the stage `g(a, _, b)` with effectful
`a` (tag 1), carrier (tag 2) and `b` (tag 3), the emitted code runs the
carrier's effect first — the observed trace is `[2, 1, 3]`, not the
claimed `[1, 2, 3]` (a, then carrier, then b). -/
theorem pipe_effect_order_cex :
    pipeExpand (.eff 2 (.lit 5))
        [.pathCall ["g"] ⟨[.expr (.eff 1 (.lit 10)), .hole, .expr (.eff 3 (.lit 20))], false⟩]
      = some (.letE pipeTemp (.eff 2 (.lit 5))
          (.app (.path ["g"])
            (.cons (.eff 1 (.lit 10)) (.cons (.var pipeTemp) (.cons (.eff 3 (.lit 20)) .nil)))))
    ∧ evalE sampleG 9
        (.letE pipeTemp (.eff 2 (.lit 5))
          (.app (.path ["g"])
            (.cons (.eff 1 (.lit 10)) (.cons (.var pipeTemp) (.cons (.eff 3 (.lit 20)) .nil))))) []
      = some (.int 100520, [2, 1, 3])
    ∧ ([2, 1, 3] : Trace) ≠ [1, 2, 3] :=
  ⟨rfl, rfl, by decide⟩

/-- Claim C5, amended: in the emitted code for `g(a, _, b)` the carrier's
effect happens first, at the temporary binding, and the explicit
arguments `a` and `b` then run in left-to-right order: the final trace
appends the carrier's effects, then `a`'s, then `b`'s. -/
theorem pipe_effect_order_carrier_first (G : FunEnv) (n : Nat) (g : List String)
    (a b c : Expr) (tr dc da db : Trace) (v va vb w : Value)
    (impl : List Value → Option Value)
    (ha0 : ∀ u, subst pipeTemp u a = a) (hb0 : ∀ u, subst pipeTemp u b = b)
    (hc : evalE G (n + 4) c tr = some (v, tr ++ dc))
    (ha : evalE G (n + 2) a (tr ++ dc) = some (va, tr ++ dc ++ da))
    (hb : evalE G n b (tr ++ dc ++ da) = some (vb, tr ++ dc ++ da ++ db))
    (hg : G g = some impl) (hw : impl [va, v, vb] = some w) :
    pipeExpand c [.pathCall g ⟨[.expr a, .hole, .expr b], false⟩]
      = some (.letE pipeTemp c
          (.app (.path g) (.cons a (.cons (.var pipeTemp) (.cons b .nil)))))
    ∧ evalE G (n + 5)
        (.letE pipeTemp c
          (.app (.path g) (.cons a (.cons (.var pipeTemp) (.cons b .nil))))) tr
      = some (w, tr ++ dc ++ da ++ db) := by
  refine ⟨rfl, ?_⟩
  have hs : subst pipeTemp (valToExpr v)
        (Expr.app (.path g) (.cons a (.cons (.var pipeTemp) (.cons b .nil))))
      = Expr.app (.path g) (.cons a (.cons (valToExpr v) (.cons b .nil))) := by
    simp [subst, substL, ha0 (valToExpr v), hb0 (valToExpr v)]
  have e1 : n + 5 = (n + 4) + 1 := rfl
  have e2 : n + 4 = (n + 3) + 1 := rfl
  have e3 : n + 3 = (n + 2) + 1 := rfl
  have e4 : n + 2 = (n + 1) + 1 := rfl
  rw [e1, evalE_letE, hc, Option.some_bind, hs, e2, evalE_app, evalE_path,
    Option.some_bind, e3, evalArgsE_cons]
  rw [e4] at ha
  rw [ha, Option.some_bind, evalArgsE_cons, evalE_valToExpr, Option.some_bind,
    evalArgsE_cons, hb, Option.some_bind, evalArgsE_nil, Option.some_bind,
    Option.some_bind]
  simp only [applyV_fn, hg, hw, Option.some_bind, Option.map_some']

/-- Claim C5, witness: concrete effectful `a`, carrier and `b`; the trace
is carrier first, then `a`, then `b`. -/
theorem pipe_effect_order_carrier_first_witness :
    pipeExpand (.eff 2 (.lit 5))
        [.pathCall ["g"] ⟨[.expr (.eff 1 (.lit 10)), .hole, .expr (.eff 3 (.lit 20))], false⟩]
      = some (.letE pipeTemp (.eff 2 (.lit 5))
          (.app (.path ["g"])
            (.cons (.eff 1 (.lit 10)) (.cons (.var pipeTemp) (.cons (.eff 3 (.lit 20)) .nil)))))
    ∧ evalE sampleG 6
        (.letE pipeTemp (.eff 2 (.lit 5))
          (.app (.path ["g"])
            (.cons (.eff 1 (.lit 10)) (.cons (.var pipeTemp) (.cons (.eff 3 (.lit 20)) .nil))))) []
      = some (.int 100520, [2, 1, 3]) :=
  pipe_effect_order_carrier_first sampleG 1 ["g"]
    (.eff 1 (.lit 10)) (.eff 3 (.lit 20)) (.eff 2 (.lit 5))
    [] [2] [1] [3] (.int 5) (.int 10) (.int 20) (.int 100520)
    (fun vs =>
      match vs with
      | [Value.int a, Value.int b, Value.int c] => some (.int (a * 10000 + b * 100 + c))
      | _ => none)
    (fun u => rfl) (fun u => rfl)
    rfl rfl rfl rfl (by decide)

/-- A list of ordinary expressions, as argument tokens, has no blank to
fill: filling returns the expressions unchanged. -/
lemma fillArgsWith_map (u : Expr) (es : List Expr) :
    fillArgsWith u (es.map Arg.expr) = Args.ofList es := by
  induction es with
  | nil => rfl
  | cons e r ih => simp [fillArgsWith, Args.ofList, ih]

/-- Heads-only argument tokens pass the `all not-blank` test. -/
lemma all_not_isHole_map (es : List Expr) :
    ((es.map Arg.expr).all fun a => !(Arg.isHole a)) = true := by
  rw [List.all_eq_true]
  intro a ha
  rcases List.mem_map.mp ha with ⟨e, _, rfl⟩
  rfl

/-- Substitution fixes an argument list none of whose members mention the
substituted variable. -/
lemma substL_ofList (u : Expr) (es : List Expr)
    (h : ∀ e, e ∈ es → subst pipeTemp u e = e) :
    substL pipeTemp u (Args.ofList es) = Args.ofList es := by
  induction es with
  | nil => rfl
  | cons e r ih =>
      simp [Args.ofList, substL, h e (List.mem_cons_self _ _),
        ih (fun e1 he => h e1 (List.mem_cons_of_mem _ he))]

/-- Claim C10: the placeholder arms also accept argument lists with zero
blanks — a named-callee list with a trailing comma such as `f(a, b,)`,
and an empty parenthesized-callee list such as `(c)()`.  In both cases
the carrier is bound to the temporary (so its effects still run), the
temporary is never referenced, and the emitted call does not contain the
carrier anywhere: the body evaluated after the binding is the original
call itself. -/
theorem pipe_zero_hole_match_unused_temp (G : FunEnv) (n : Nat) (g : List String)
    (ce c : Expr) (es : List Expr) (tr : Trace)
    (hne : es ≠ [])
    (h2 : ∀ e, e ∈ es → ∀ u, subst pipeTemp u e = e)
    (h3 : ∀ u, subst pipeTemp u ce = ce) :
    pipeExpand c [.pathCall g ⟨es.map Arg.expr, true⟩]
      = some (.letE pipeTemp c (.app (.path g) (Args.ofList es)))
    ∧ evalE G (n + 1) (.letE pipeTemp c (.app (.path g) (Args.ofList es))) tr
        = ((evalE G n c tr).bind fun p =>
            evalE G n (.app (.path g) (Args.ofList es)) p.2)
    ∧ pipeExpand c [.parenCall ce ⟨[], false⟩]
      = some (.letE pipeTemp c (.app ce .nil))
    ∧ evalE G (n + 1) (.letE pipeTemp c (.app ce .nil)) tr
        = ((evalE G n c tr).bind fun p => evalE G n (.app ce .nil) p.2) := by
  have hm : argsMatch ⟨es.map Arg.expr, true⟩ = true := by
    simp [argsMatch, all_not_isHole_map]
  refine ⟨?_, ?_, ?_, ?_⟩
  · cases es with
    | nil => exact absurd rfl hne
    | cons e r =>
        have hm2 : argsMatch ⟨Arg.expr e :: r.map Arg.expr, true⟩ = true :=
          all_not_isHole_map (e :: r)
        simp [pipeExpand, hm2, fillArgs, fillArgsWith, fillArgsWith_map, Args.ofList]
  · rw [evalE_letE]
    cases evalE G n c tr with
    | none => rfl
    | some p =>
        simp [subst, substL_ofList (valToExpr p.1) es
          (fun e he => h2 e he (valToExpr p.1))]
  · rfl
  · rw [evalE_letE]
    cases evalE G n c tr with
    | none => rfl
    | some p => simp [subst, substL, h3 (valToExpr p.1)]

/-- Claim C10, witness: `f(1, 2,)` written `pair2(1, 2,)` and `(h)()`,
with the effectful carrier `eff 9 7`; the temporary is bound and dropped. -/
theorem pipe_zero_hole_match_unused_temp_witness :
    pipeExpand (.eff 9 (.lit 7)) [.pathCall ["pair2"] ⟨[Expr.lit 1, Expr.lit 2].map Arg.expr, true⟩]
      = some (.letE pipeTemp (.eff 9 (.lit 7))
          (.app (.path ["pair2"]) (Args.ofList [Expr.lit 1, Expr.lit 2])))
    ∧ evalE sampleG (3 + 1) (.letE pipeTemp (.eff 9 (.lit 7))
          (.app (.path ["pair2"]) (Args.ofList [Expr.lit 1, Expr.lit 2]))) []
        = ((evalE sampleG 3 (.eff 9 (.lit 7)) []).bind fun p =>
            evalE sampleG 3 (.app (.path ["pair2"]) (Args.ofList [Expr.lit 1, Expr.lit 2])) p.2)
    ∧ pipeExpand (.eff 9 (.lit 7)) [.parenCall (.path ["h"]) ⟨[], false⟩]
      = some (.letE pipeTemp (.eff 9 (.lit 7)) (.app (.path ["h"]) .nil))
    ∧ evalE sampleG (3 + 1) (.letE pipeTemp (.eff 9 (.lit 7)) (.app (.path ["h"]) .nil)) []
        = ((evalE sampleG 3 (.eff 9 (.lit 7)) []).bind fun p =>
            evalE sampleG 3 (.app (.path ["h"]) .nil) p.2) :=
  pipe_zero_hole_match_unused_temp sampleG 3 ["pair2"] (.path ["h"]) (.eff 9 (.lit 7))
    [Expr.lit 1, Expr.lit 2] []
    (by decide)
    (by intro e he u; simp at he; rcases he with rfl | rfl <;> rfl)
    (fun u => rfl)
